import Mathlib

/-!
Verification of the slide-segmentation core of the slides-converter
repository.  The repository's `parseMarkdownToSlides` variants are pure
string transformations; we embed them over `List Char` (with thin
`String` wrappers) and prove the specification claims about them.

JavaScript string primitives used by the source (`replace` with the
concrete regexes that appear in the code, `split`, `trim`,
`startsWith`, `slice`, `join`) are embedded as executable scanners over
`List Char` with the exact leftmost / non-greedy / global semantics of
the regexes in the source.  `trim` is embedded for the whitespace
characters that can occur in the inputs involved (space, tab, newline,
carriage return).
-/

namespace SlidesConv

/-- JavaScript-style whitespace test restricted to the four whitespace
characters occurring in the repository's inputs. -/
def isWs (c : Char) : Bool :=
  c == ' ' || c == '\t' || c == '\n' || c == '\r'

/-- Trim whitespace at both ends, as `String.prototype.trim`. -/
def trimL (l : List Char) : List Char :=
  ((l.dropWhile isWs).reverse.dropWhile isWs).reverse

/-- `String` wrapper for `trimL`. -/
def trimS (s : String) : String :=
  String.mk (trimL s.data)

/-- Literal (case-sensitive) pattern test at the head of a list. -/
def litHead : List Char → List Char → Bool
  | [], _ => true
  | _ :: _, [] => false
  | p :: ps, c :: cs => p == c && litHead ps cs

/-- Index of the first occurrence of the literal pattern `p` in `l`. -/
def firstOcc (p : List Char) : List Char → Option Nat
  | [] => if litHead p [] then some 0 else none
  | c :: rest =>
    if litHead p (c :: rest) then some 0
    else (firstOcc p rest).map (· + 1)

/-- Scanner for global literal replacement.  `skip` counts characters
still to drop because they belong to an already-matched occurrence; at
`skip = 0` the pattern `p0 :: ps` is tried at the current position: on
a match the replacement `r` is emitted and the remaining `ps.length`
pattern characters are skipped, otherwise the character is copied. -/
def replGo (p0 : Char) (ps r : List Char) : Nat → List Char → List Char
  | _, [] => []
  | n + 1, _ :: rest => replGo p0 ps r n rest
  | 0, c :: rest =>
    if litHead (p0 :: ps) (c :: rest) then r ++ replGo p0 ps r ps.length rest
    else c :: replGo p0 ps r 0 rest

/-- Global, leftmost, non-overlapping replacement of the literal
pattern `p0 :: ps` by `r` — `String.prototype.replace` with a `g`-flagged
literal regex.  The pattern is passed with its head split off so that it
is never empty. -/
def repl (p0 : Char) (ps r : List Char) (l : List Char) : List Char :=
  replGo p0 ps r 0 l

/-- Collapse every run of three or more newlines to exactly two —
`replace(/\n{3,}/g, '\n\n')`.  A newline is dropped exactly when the
already-collapsed tail still begins with two newlines, which keeps the
first two newlines of every maximal run. -/
def collapse : List Char → List Char
  | [] => []
  | c :: rest =>
    let r := collapse rest
    if c = '\n' ∧ r.take 2 = ['\n', '\n'] then r else c :: r

/-- Does the list contain three consecutive newlines?  Stated via a
two-newline lookahead to align with the collapsing scanner. -/
def hasNNN : List Char → Bool
  | [] => false
  | c :: rest => (decide (c = '\n' ∧ rest.take 2 = ['\n', '\n'])) || hasNNN rest

/-- No closing angle bracket occurs anywhere after an opening one: the
list contains no substring shaped like a tag.  It suffices to check the
first opening bracket, since a closing bracket after any later opening
bracket would also lie after the first. -/
def noLtGt : List Char → Bool
  | [] => true
  | c :: rest => if c = '<' then !(rest.contains '>') else noLtGt rest

/-- Case-insensitive single-character match against a lowercase ASCII
pattern character, as the `i` regex flag on the source's patterns. -/
def charCI (pat c : Char) : Bool :=
  c == pat || c == pat.toUpper

/-- Case-insensitive literal pattern test at the head of a list
(patterns are given in lowercase). -/
def ciHead : List Char → List Char → Bool
  | [], _ => true
  | _ :: _, [] => false
  | p :: ps, c :: cs => charCI p c && ciHead ps cs

/-- Match for the closing-heading-tag alternative of the block-tag
regex: a five-character prefix of shape a slash-h-digit closing tag
with digit 1-6. -/
def hMatch : List Char → Bool
  | a :: b :: h :: d :: e :: _ =>
    a == '<' && b == '/' && charCI 'h' h && ('1' ≤ d && d ≤ '6') && e == '>'
  | _ => false

/-- Length of the block-level-tag match at the head of `l` for the
regex alternation used at route.ts:494 (case-insensitive), or 0 when no
alternative matches here. -/
def blockTagLen (l : List Char) : Nat :=
  if ciHead "<p>".data l then 3
  else if ciHead "</p>".data l then 4
  else if ciHead "</li>".data l then 5
  else if hMatch l then 5
  else if ciHead "<br/>".data l then 5
  else if ciHead "<br>".data l then 4
  else 0

/-- Scanner for the block-tag pass; `skip` counts characters of an
already-matched tag still to drop. -/
def blockGo : Nat → List Char → List Char
  | _, [] => []
  | n + 1, _ :: rest => blockGo n rest
  | 0, c :: rest =>
    let n := blockTagLen (c :: rest)
    if n = 0 then c :: blockGo 0 rest
    else '\n' :: blockGo (n - 1) rest

/-- First pass of the markup stripping at route.ts:494: replace every
block-level tag or line-break tag by a newline. -/
def blockPass (l : List Char) : List Char :=
  blockGo 0 l

/-- Scanner for the list-item pass; `skip` counts characters of an
already-matched tag still to drop. -/
def liGo : Nat → List Char → List Char
  | _, [] => []
  | n + 1, _ :: rest => liGo n rest
  | 0, c :: rest =>
    if ciHead "<li>".data (c :: rest) then ' ' :: '-' :: ' ' :: liGo 3 rest
    else c :: liGo 0 rest

/-- Second pass (route.ts:495): replace every list-item opening tag,
case-insensitively, by a dash item marker. -/
def liPass (l : List Char) : List Char :=
  liGo 0 l

/-- Scanner for the tag-removal pass.  The first argument buffers, in
reverse, the characters read since an opening angle bracket that has
not yet found its closing bracket; a closing bracket discards the
buffered tag, and an unmatched opening bracket at end of input is
emitted verbatim (no closing bracket follows it, so the regex cannot
match from it or from anywhere inside the buffer). -/
def tagGo : Option (List Char) → List Char → List Char
  | none, [] => []
  | none, c :: rest => if c = '<' then tagGo (some []) rest else c :: tagGo none rest
  | some buf, [] => '<' :: buf.reverse
  | some buf, c :: rest =>
    if c = '>' then tagGo none rest else tagGo (some (c :: buf)) rest

/-- Third pass (route.ts:496): remove every remaining tag, the regex
being an opening angle bracket, a greedy run of non-closing characters,
and a closing bracket; matches are leftmost and a match exists at an
opening bracket exactly when some closing bracket follows. -/
def tagPass (l : List Char) : List Char :=
  tagGo none l

/-- Entity pass for the less-than entity (route.ts:497). -/
def entLt (l : List Char) : List Char :=
  repl '&' "lt;".data "<".data l

/-- Entity pass for the greater-than entity (route.ts:498). -/
def entGt (l : List Char) : List Char :=
  repl '&' "gt;".data ">".data l

/-- Entity pass for the double-quote entity (route.ts:499). -/
def entQuot (l : List Char) : List Char :=
  repl '&' "quot;".data "\"".data l

/-- Entity pass for the ampersand entity (route.ts:500). -/
def entAmp (l : List Char) : List Char :=
  repl '&' "amp;".data "&".data l

/-- Entity decoding (route.ts:497-500): the four standard entities, in
the order the source applies them. -/
def decodeEntities (l : List Char) : List Char :=
  entAmp (entQuot (entGt (entLt l)))

/-- The markup-stripping step of the fourth `parseMarkdownToSlides`
variant (route.ts:493-502): block tags to newlines, list items to
dashes, tag removal, entity decoding, newline collapsing, final trim. -/
def stripL (l : List Char) : List Char :=
  trimL (collapse (decodeEntities (tagPass (liPass (blockPass l)))))

/-- `String` wrapper for the markup-stripping step. -/
def strip (s : String) : String :=
  String.mk (stripL s.data)

/-- The slide record of the source (`interface SlideContent`): a title,
a list of body paragraphs, and a heading level. -/
structure SlideContent where
  title : List Char
  content : List (List Char)
  level : Nat
deriving DecidableEq

/-- Scanner for literal splitting; `skip` counts characters of an
already-matched separator still to drop. -/
def splitGo (p0 : Char) (ps : List Char) : Nat → List Char → List (List Char)
  | _, [] => [[]]
  | n + 1, _ :: rest => splitGo p0 ps n rest
  | 0, c :: rest =>
    if litHead (p0 :: ps) (c :: rest) then [] :: splitGo p0 ps ps.length rest
    else
      match splitGo p0 ps 0 rest with
      | [] => [[c]]
      | piece :: more => (c :: piece) :: more

/-- Split on every occurrence of the literal separator `p0 :: ps`, as
`String.prototype.split` with a plain-text regex (leftmost,
non-overlapping, separator removed). -/
def splitSub (p0 : Char) (ps l : List Char) : List (List Char) :=
  splitGo p0 ps 0 l

/-- Split into lines, as `split('\n')`. -/
def linesOf (l : List Char) : List (List Char) :=
  splitSub '\n' [] l

/-- `line.startsWith('#')`. -/
def startsHash (l : List Char) : Bool :=
  litHead ['#'] l

/-- Removal of the leading front-matter block, i.e. the anchored
non-greedy replace at route.ts:316: if the text starts with three
hyphens and three hyphens occur again later, everything up to and
including the second occurrence is removed; otherwise the text is
unchanged. -/
def removeFrontmatterL (l : List Char) : List Char :=
  if litHead "---".data l then
    match firstOcc "---".data (l.drop 3) with
    | some j => l.drop (3 + j + 3)
    | none => l
  else l

/-- `String` wrapper for the leading front-matter removal. -/
def removeFrontmatter (s : String) : String :=
  String.mk (removeFrontmatterL s.data)

/-- Scanner for global style-block removal; `skip` counts characters
of an already-matched block still to drop.  At a style opening tag the
match extends to the first closing tag after it (the non-greedy
regex); with no closing tag the regex cannot match here and the
character is copied. -/
def remStyGo : Nat → List Char → List Char
  | _, [] => []
  | n + 1, _ :: rest => remStyGo n rest
  | 0, c :: rest =>
    if litHead "<style>".data (c :: rest) then
      match firstOcc "</style>".data (rest.drop 6) with
      | some j => remStyGo (6 + j + 8) rest
      | none => c :: remStyGo 0 rest
    else c :: remStyGo 0 rest

/-- Global removal of style blocks (route.ts:317): every style opening
tag followed by a closing tag is removed together with the enclosed
region, non-greedily per block. -/
def removeStylesG (l : List Char) : List Char :=
  remStyGo 0 l

/-- Strip the heading markers from a title line (route.ts:335):
`replace` of one-or-more leading hash characters and following
whitespace, then `trim`. -/
def stripHashes (l : List Char) : List Char :=
  trimL ((l.dropWhile (· == '#')).dropWhile isWs)

/-- The title-search loop of the third variant (route.ts:332-340): the
first line anywhere in the section that starts with a hash character
becomes the title; every other line is collected as content. -/
def v3Loop : List (List Char) → List Char × List (List Char) × Bool →
    List Char × List (List Char) × Bool
  | [], st => st
  | line :: rest, (title, acc, found) =>
    if startsHash line && !found then v3Loop rest (stripHashes line, acc, true)
    else v3Loop rest (title, acc ++ [line], found)

/-- The per-section mapper of the third variant (route.ts:323-355):
trim the section, split into lines, search for a heading line, fall
back to the first line as title when no line starts with a hash, join
the content lines, and default the title to a single space. -/
def v3Section (sec : List Char) : SlideContent :=
  let lines := linesOf (trimL sec)
  let st := v3Loop lines ([], [], false)
  let tc :=
    if !st.2.2 && decide (0 < lines.length) then (lines.headD [], lines.drop 1)
    else (st.1, st.2.1)
  let content := trimL (List.intercalate ['\n'] tc.2)
  ⟨if tc.1 = [] then [' '] else tc.1, [content], 1⟩

/-- The emission filter of the third variant (route.ts:356): keep a
slide whose trimmed title or trimmed first body entry is non-empty.
(The source indexes `content[0]`; every record it builds has exactly
one body entry, and an empty body list counts as empty here.) -/
def keepV3 (r : SlideContent) : Bool :=
  trimL r.title != [] ||
    (match r.content with
     | c :: _ => trimL c != []
     | [] => false)

/-- The third `parseMarkdownToSlides` variant (route.ts:313-359), the
repository's self-contained pipeline: remove leading front matter and
style blocks, trim, split on delimiter lines, map each section to a
record, and drop empty records. -/
def parseV3L (l : List Char) : List SlideContent :=
  let cleaned := trimL (removeStylesG (removeFrontmatterL l))
  let sections := splitSub '\n' "---\n".data cleaned
  (sections.map v3Section).filter keepV3

/-- `String` wrapper for the third variant. -/
def parseV3 (s : String) : List SlideContent :=
  parseV3L s.data

/-- Removal of the first region bounded by the literal patterns `op`
and `cl`, the non-anchored non-greedy single replace used by the second
variant (route.ts:158-159): the match starts at the first occurrence of
`op` and ends at the first occurrence of `cl` beginning at or after the
end of `op`; with no such pair the text is unchanged. -/
def removeSpanOnce (op cl l : List Char) : List Char :=
  match firstOcc op l with
  | none => l
  | some i =>
    match firstOcc cl ((l.drop i).drop op.length) with
    | none => l
    | some j => l.take i ++ ((l.drop (i + op.length)).drop (j + cl.length))

/-- Lookahead split before every line starting a level-2 heading, the
regex split at route.ts:164: the text is cut at each newline that is
immediately followed by two hashes and a space; the heading stays at
the start of its section. -/
def splitH2 : List Char → List (List Char)
  | [] => [[]]
  | c :: rest =>
    if c = '\n' && litHead "## ".data rest then [] :: splitH2 rest
    else
      match splitH2 rest with
      | [] => [[c]]
      | p :: more => (c :: p) :: more

/-- The section loop of the second variant (route.ts:168-207),
processing sections in order with their index: blank sections are
skipped; the first section may combine a level-1 heading (and an
immediately following level-2 heading) into the title; later sections
take their title from a leading level-2 heading or fall back to the
first line; the record level is 1 exactly when the finished title still
starts with a hash and a space.  `v2TC` computes the (title, content
lines) pair of a section from its index and lines. -/
def v2TC (idx : Nat) (lines : List (List Char)) : List Char × List (List Char) :=
  let l0 := lines.headD []
  if idx = 0 && litHead "# ".data l0 then
    let t1 := trimL (l0.drop 2)
    if decide (1 < lines.length) && litHead "## ".data ((lines.drop 1).headD []) then
      (t1 ++ '\n' :: trimL (((lines.drop 1).headD []).drop 3), lines.drop 2)
    else (t1, lines.drop 1)
  else if litHead "## ".data l0 then (trimL (l0.drop 3), lines.drop 1)
  else (l0, lines.drop 1)

def v2Go : Nat → List (List Char) → List SlideContent → List SlideContent
  | _, [], acc => acc
  | idx, sec :: rest, acc =>
    if trimL sec = [] then v2Go (idx + 1) rest acc
    else
      let tc := v2TC idx (linesOf (trimL sec))
      let content := trimL (List.intercalate ['\n'] tc.2)
      v2Go (idx + 1) rest
        (if tc.1 ≠ [] ∨ content ≠ [] then
          acc ++ [⟨if tc.1 = [] then [' '] else tc.1, [content],
                   if litHead "# ".data tc.1 then 1 else 2⟩]
        else acc)

/-- The second `parseMarkdownToSlides` variant (route.ts:155-209):
unanchored front-matter removal, style removal, trim, lookahead split
on level-2 headings, then the indexed section loop. -/
def parseV2L (l : List Char) : List SlideContent :=
  let cleaned :=
    trimL (removeSpanOnce "<style>".data "</style>".data
      (removeSpanOnce "---".data "---".data l))
  v2Go 0 (splitH2 cleaned) []

/-- `String` wrapper for the second variant. -/
def parseV2 (s : String) : List SlideContent :=
  parseV2L s.data

/-- A markdown-it token as consumed by the token-based variant
(part_000): a type, a tag and an inline content. -/
structure Token where
  ttype : String
  tag : String
  content : String
deriving DecidableEq

/-- Heading level from a heading tag (part_000:26): the first letter h
is removed and the remainder parsed as a number (a malformed tag, NaN
in the source, is modelled as 0). -/
def removeFirstH : List Char → List Char
  | [] => []
  | c :: rest => if c = 'h' then rest else c :: removeFirstH rest

/-- Numeric heading level of a tag string. -/
def tokenLevel (tag : String) : Nat :=
  (String.mk (removeFirstH tag.data)).toNat?.getD 0

/-- One step of the token loop of part_000 (lines 18-43), with state
(emitted slides, current slide, collecting flag), reproducing the
source's branch order and truthiness tests. -/
def tokStep (st : List SlideContent × Option SlideContent × Bool) (tok : Token) :
    List SlideContent × Option SlideContent × Bool :=
  match st with
  | (slides, cur, collecting) =>
    if tok.ttype = "heading_open" then
      (slides ++ cur.toList, some ⟨[], [], tokenLevel tok.tag⟩, false)
    else
      match cur with
      | none => (slides, none, collecting)
      | some c =>
        if tok.ttype = "inline" ∧ c.title = [] then
          (slides, some ⟨tok.content.data, c.content, c.level⟩, true)
        else if tok.ttype = "paragraph_open" ∧ collecting then
          (slides, some c, collecting)
        else if tok.ttype = "inline" ∧ c.title ≠ [] ∧ collecting then
          if trimL tok.content.data ≠ [] then
            (slides, some ⟨c.title, c.content ++ [tok.content.data], c.level⟩, collecting)
          else (slides, some c, collecting)
        else (slides, some c, collecting)

/-- The token-based `parseMarkdownToSlides` of part_000 (lines 11-50):
fold the token loop over the stream, append the still-open slide, and
keep only slides with a truthy (non-empty) title. -/
def parseTokens (ts : List Token) : List SlideContent :=
  let st := ts.foldl tokStep ([], none, false)
  (st.1 ++ st.2.1.toList).filter (fun r => r.title != [])

/-- Modelled from the spec: the SlideRecord entity of spec 3, the
output type of the canonical Segmenter. -/
structure SlideRecord where
  title : List Char
  body : List Char
  headingLevel : Nat
deriving DecidableEq

/-- Modelled from the spec: the heading-marker test of the canonical
Segmenter (spec 4.2, step 1), absent from src/ — the repository's
rendering variants delegate heading recognition to the external
markdown-it library.  One to three hashes followed by a space yield the
marker count. -/
def headLvl : List Char → Option Nat
  | '#' :: '#' :: '#' :: ' ' :: _ => some 3
  | '#' :: '#' :: ' ' :: _ => some 2
  | '#' :: ' ' :: _ => some 1
  | _ => none

/-- Modelled from the spec: the section-boundary class of the canonical
Segmenter (spec 4.2, step 1): a pure delimiter line of three hyphens,
or a heading line. -/
def isBoundaryLine (l : List Char) : Bool :=
  l == "---".data || (headLvl l).isSome

/-- Modelled from the spec: the lookahead split of the canonical
Segmenter (spec 4.2, step 1): a boundary line starts the section it
introduces. -/
def splitSections : List (List Char) → List (List (List Char))
  | [] => []
  | l :: rest =>
    match rest, splitSections rest with
    | _, [] => [[l]]
    | r0 :: _, s :: more =>
      if isBoundaryLine r0 then [l] :: s :: more else (l :: s) :: more
    | [], _ :: _ => [[l]]

/-- Modelled from the spec: the per-section rule of the canonical
Segmenter (spec 4.2, steps 2-4), absent from src/: a leading pure
delimiter line is dropped; a heading line yields the marker-stripped
title and its marker count as level; otherwise the first line is the
title verbatim at level 1; remaining lines joined and trimmed are the
body; title and body then pass through the markup-stripping step. -/
def sectionToRecord (sec : List (List Char)) : SlideRecord :=
  match sec with
  | [] => ⟨[], [], 1⟩
  | l0 :: rest =>
    if l0 = "---".data then
      match rest with
      | [] => ⟨[], [], 1⟩
      | l1 :: rest' =>
        match headLvl l1 with
        | some k => ⟨stripL (trimL (l1.drop k)), stripL (trimL (List.intercalate ['\n'] rest')), k⟩
        | none => ⟨stripL l1, stripL (trimL (List.intercalate ['\n'] rest')), 1⟩
    else
      match headLvl l0 with
      | some k => ⟨stripL (trimL (l0.drop k)), stripL (trimL (List.intercalate ['\n'] rest)), k⟩
      | none => ⟨stripL l0, stripL (trimL (List.intercalate ['\n'] rest)), 1⟩

/-- Modelled from the spec: blank-section test of the canonical
Segmenter (spec 4.2, step 2). -/
def isBlankSection (sec : List (List Char)) : Bool :=
  trimL (List.intercalate ['\n'] sec) == []

/-- Modelled from the spec: the canonical Segmenter
`segment(cleaned) -> SlideRecord[]` of spec 4.2, absent from src/ (the
repository holds six divergent approximations of it): split into
sections, drop blank sections, map each section to a record, and emit
only records with a non-empty trimmed title or body. -/
def specSegment (s : String) : List SlideRecord :=
  (((splitSections (linesOf s.data)).filter (fun sec => !isBlankSection sec)).map
      sectionToRecord).filter
    (fun r => trimL r.title != [] || trimL r.body != [])

/-! ## Theorems -/

/-- Claim C1: every record returned by the self-contained pipeline
(preprocess of route.ts:314-318 followed by segmentation, route.ts:
313-359) has a non-empty trimmed title or a non-empty trimmed body;
no fully empty record is emitted.  This is forced by the emission
filter at route.ts:356, which is also the filter of the first and
fourth variants. -/
theorem parseV3_title_or_body_nonempty (s : String) (r : SlideContent)
    (h : r ∈ parseV3 s) :
    trimL r.title ≠ [] ∨ trimL (r.content.headD []) ≠ [] := by
  unfold parseV3 parseV3L at h
  simp only [List.mem_filter] at h
  have hk := h.2
  unfold keepV3 at hk
  rcases hc : r.content with _ | ⟨c, cs⟩
  · left
    rw [hc] at hk
    simpa using hk
  · rw [hc] at hk
    simp only [hc, List.headD_cons]
    simpa [Bool.or_eq_true, bne_iff_ne] using hk

/-- Witness for C1 at a concrete input. -/
theorem parseV3_title_or_body_nonempty_w :
    trimL "Hi".data ≠ [] ∨ trimL (([("body".data)] : List (List Char)).headD []) ≠ [] :=
  parseV3_title_or_body_nonempty "# Hi\nbody" ⟨"Hi".data, ["body".data], 1⟩ (by decide)

/-- Claim C2: the segmentation core is a total function — for every
input string, however irregular, it returns some list of records, and
the empty list is an ordinary return value (the empty input yields
it). -/
theorem parseV3_total_and_empty_ok :
    (∀ s : String, ∃ rs : List SlideContent, parseV3 s = rs) ∧ parseV3 "" = [] :=
  ⟨fun s => ⟨parseV3 s, rfl⟩, by decide⟩

theorem litHead_append_self (p t : List Char) : litHead p (p ++ t) = true := by
  induction p with
  | nil => rfl
  | cons c ps ih => simp [litHead, ih]

theorem firstOcc_spec (p : List Char) (n : Nat) (x : List Char)
    (hlt : ∀ i, i < n → litHead p (x.drop i) = false)
    (hn : litHead p (x.drop n) = true) : firstOcc p x = some n := by
  induction n generalizing x with
  | zero =>
    rw [List.drop_zero] at hn
    cases x with
    | nil => show (if litHead p [] then some 0 else none) = some 0; rw [hn]; rfl
    | cons c r =>
      show (if litHead p (c :: r) then some 0 else (firstOcc p r).map (· + 1)) = some 0
      rw [hn]
      rfl
  | succ n ih =>
    cases x with
    | nil =>
      have h0 := hlt 0 (Nat.succ_pos n)
      rw [List.drop_nil] at hn
      rw [List.drop_nil] at h0
      rw [hn] at h0
      exact Bool.noConfusion h0
    | cons c r =>
      have h0 := hlt 0 (Nat.succ_pos n)
      rw [List.drop_zero] at h0
      show (if litHead p (c :: r) then some 0 else (firstOcc p r).map (· + 1)) = _
      rw [h0]
      simp only [Bool.false_eq_true, if_false]
      have hlt' : ∀ i, i < n → litHead p (r.drop i) = false := by
        intro i hi
        have := hlt (i + 1) (by omega)
        rwa [List.drop_succ_cons] at this
      have hn' : litHead p (r.drop n) = true := by
        rwa [List.drop_succ_cons] at hn
      rw [ih r hlt' hn']
      rfl

/-- Claim C3: the front-matter removal of the core preprocessing
(route.ts:316) removes at most one block and only a leading one: a
document that does not begin with the three-hyphen delimiter is left
entirely unchanged, and a document consisting of a leading delimiter,
a front-matter body in which no three-hyphen occurrence starts, the
first closing delimiter, and an arbitrary remainder is mapped to
exactly that remainder — the removal stops at the first closing
delimiter and every later three-hyphen delimiter line is preserved
verbatim for the segmenter. -/
theorem removeFrontmatter_leading_only :
    (∀ s : String, litHead "---".data s.data = false → removeFrontmatter s = s) ∧
    (∀ mid rest : List Char,
      (∀ i, i < mid.length →
        litHead "---".data ((mid ++ ("---".data ++ rest)).drop i) = false) →
      (removeFrontmatter
        (String.mk ("---".data ++ (mid ++ ("---".data ++ rest))))).data = rest) := by
  constructor
  · intro s h
    obtain ⟨l⟩ := s
    simp only [String.data] at h
    simp [removeFrontmatter, removeFrontmatterL, h]
  · intro mid rest h
    show (removeFrontmatterL ("---".data ++ (mid ++ ("---".data ++ rest)))) = rest
    have hA : litHead "---".data ("---".data ++ (mid ++ ("---".data ++ rest))) = true :=
      litHead_append_self _ _
    have hB : ("---".data ++ (mid ++ ("---".data ++ rest))).drop 3 =
        mid ++ ("---".data ++ rest) := by
      rw [show (3 : Nat) = "---".data.length from rfl, List.drop_left]
    have hC : firstOcc "---".data (mid ++ ("---".data ++ rest)) = some mid.length := by
      apply firstOcc_spec
      · intro i hi
        exact h i hi
      · rw [List.drop_left]
        exact litHead_append_self _ _
    unfold removeFrontmatterL
    rw [hA]
    simp only [if_true]
    rw [hB, hC]
    have d2 : (mid ++ ("---".data ++ rest)).drop mid.length = "---".data ++ rest :=
      List.drop_left _ _
    have d3 : ("---".data ++ rest).drop 3 = rest := by
      rw [show (3 : Nat) = "---".data.length from rfl, List.drop_left]
    have comb :
        ((("---".data ++ (mid ++ ("---".data ++ rest))).drop 3).drop mid.length).drop 3 =
        ("---".data ++ (mid ++ ("---".data ++ rest))).drop (3 + mid.length + 3) := by
      rw [List.drop_drop, List.drop_drop]
      congr 1
    show ("---".data ++ (mid ++ ("---".data ++ rest))).drop (3 + mid.length + 3) = rest
    rw [← comb, hB, d2, d3]

/-- Witness for C3: front matter with a hyphen-free body followed by a
remainder that itself contains a later delimiter line; exactly the
remainder survives. -/
theorem removeFrontmatter_leading_only_w :
    (removeFrontmatter
      (String.mk ("---".data ++ ("\nfm\n".data ++ ("---".data ++ "\n# T\n---\nend".data))))).data =
      "\n# T\n---\nend".data :=
  removeFrontmatter_leading_only.2 "\nfm\n".data "\n# T\n---\nend".data (by decide)

/-- Claim C4 counterexample: on the delimiter-led input of the claim
the full pipeline does NOT return two records titled Title A and
Title B — the leading delimiter pair is consumed as front matter by
the preprocessing step. -/
theorem parseV3_delimiter_led_not_two_records :
    ¬ ((parseV3 "---\n# Title A\ncontent A\n---\n# Title B\ncontent B").map
        SlideContent.title = ["Title A".data, "Title B".data]) := by
  decide

/-- Claim C4 amended: on the delimiter-led input the full pipeline
returns exactly one record, titled Title B with body content B — the
region from the leading delimiter to the second delimiter is removed
as front matter before segmentation. -/
theorem parseV3_delimiter_led_one_record :
    parseV3 "---\n# Title A\ncontent A\n---\n# Title B\ncontent B" =
      [⟨"Title B".data, ["content B".data], 1⟩] := by
  decide

theorem splitGo_ne_nil (p0 : Char) (ps : List Char) (k : Nat) (l : List Char) :
    splitGo p0 ps k l ≠ [] := by
  induction l generalizing k with
  | nil => simp [splitGo]
  | cons c rest ih =>
    cases k with
    | zero =>
      by_cases h : litHead (p0 :: ps) (c :: rest) = true
      · simp [splitGo, h]
      · simp only [splitGo, h, if_false]
        cases hs : splitGo p0 ps 0 rest with
        | nil => simp
        | cons piece more => simp
    | succ n =>
      simpa [splitGo] using ih n

theorem linesOf_ne_nil (l : List Char) : linesOf l ≠ [] :=
  splitGo_ne_nil '\n' [] 0 l

/-- The title-search loop leaves the state unchanged except for
accumulating every line as content when no line starts with a hash. -/
theorem v3Loop_no_hash (ls : List (List Char)) (title : List Char)
    (acc : List (List Char)) (h : ∀ l ∈ ls, startsHash l = false) :
    v3Loop ls (title, acc, false) = (title, acc ++ ls, false) := by
  induction ls generalizing acc with
  | nil => simp [v3Loop]
  | cons l rest ih =>
    have hl : startsHash l = false := h l (by simp)
    have hrest : ∀ x ∈ rest, startsHash x = false := fun x hx => h x (by simp [hx])
    simp only [v3Loop, hl, Bool.false_and, Bool.false_eq_true, if_false]
    rw [ih (acc ++ [l]) hrest]
    simp

/-- Claim C7 counterexample: on a section whose first line is not a
heading line, the third variant takes the title from a LATER
hash-starting line (route.ts:332-340), not from the first line, so the
first-line-as-title rule fails as stated. -/
theorem v3_fallback_title_not_first_line :
    parseV3 "intro\n# Real\nrest" = [⟨"Real".data, ["intro\nrest".data], 1⟩] ∧
    ¬ ((parseV3 "intro\n# Real\nrest").map SlideContent.title = ["intro".data]) := by
  constructor
  · decide
  · decide

/-- Claim C7 amended: the first line becomes the title (with level
defaulting to 1 and the remaining lines joined as body) only for a
section in which NO line starts with a hash character; in particular
the no-heading input of the claim yields exactly the stated record. -/
theorem v3_fallback_no_hash_lines :
    (∀ sec : List Char, (∀ l ∈ linesOf (trimL sec), startsHash l = false) →
      v3Section sec =
        ⟨(if (linesOf (trimL sec)).headD [] = [] then [' ']
          else (linesOf (trimL sec)).headD []),
         [trimL (List.intercalate ['\n'] ((linesOf (trimL sec)).drop 1))], 1⟩) ∧
    parseV3 "just some text\nmore text" =
      [⟨"just some text".data, ["more text".data], 1⟩] := by
  constructor
  · intro sec h
    simp only [v3Section]
    rw [v3Loop_no_hash _ _ _ h]
    have hne : linesOf (trimL sec) ≠ [] := linesOf_ne_nil _
    have hlen : 0 < (linesOf (trimL sec)).length := List.length_pos.mpr hne
    simp [hlen]
  · decide

/-- Witness for the amended C7 at a concrete hash-free section. -/
theorem v3_fallback_no_hash_lines_w :
    v3Section "alpha\nbeta".data = ⟨"alpha".data, ["beta".data], 1⟩ := by
  have h := v3_fallback_no_hash_lines.1 "alpha\nbeta".data (by decide)
  exact h.trans (by decide)

/-- Every record the second variant's loop appends carries the level
computed from its own final title. -/
theorem v2Go_mem (secs : List (List Char)) (idx : Nat) (acc : List SlideContent)
    (r : SlideContent) (h : r ∈ v2Go idx secs acc) :
    r ∈ acc ∨ r.level = (if litHead "# ".data r.title = true then 1 else 2) := by
  induction secs generalizing idx acc with
  | nil => left; simpa [v2Go] using h
  | cons sec rest ih =>
    simp only [v2Go] at h
    by_cases ht : trimL sec = []
    · rw [if_pos ht] at h
      exact ih _ _ h
    · rw [if_neg ht] at h
      rcases ih _ _ h with hacc | hP
      · by_cases hc : (v2TC idx (linesOf (trimL sec))).1 ≠ [] ∨
            trimL (List.intercalate ['\n'] (v2TC idx (linesOf (trimL sec))).2) ≠ []
        · rw [if_pos hc] at hacc
          rcases List.mem_append.mp hacc with ha | hr
          · exact Or.inl ha
          · right
            have hr' := List.mem_singleton.mp hr
            subst hr'
            by_cases h0 : (v2TC idx (linesOf (trimL sec))).1 = []
            · simp [h0, litHead, charCI]
            · simp [h0]
        · rw [if_neg hc] at hacc
          exact Or.inl hacc
      · exact Or.inr hP

/-- Claim C9 counterexample: in the second variant a record with level
1 IS emitted — a first-section heading of shape hash-space-hash leaves
a title that still starts with a hash and a space after one marker is
stripped, so the level-1 branch at route.ts:204 is reachable. -/
theorem parseV2_level_one_reachable :
    ∃ r, r ∈ parseV2 "# # yo\nbody" ∧ r.level ≠ 2 :=
  ⟨⟨"# yo".data, ["body".data], 1⟩, by decide, by decide⟩

/-- Claim C9 amended: every record emitted by the second variant has
level 2 unless its emitted title still starts with a hash and a space
(possible only through a first-section hash-space-hash heading), in
which case it has level 1. -/
theorem parseV2_level_from_title (s : String) (r : SlideContent)
    (h : r ∈ parseV2 s) :
    (r.level = 2 ∧ litHead "# ".data r.title = false) ∨
    (r.level = 1 ∧ litHead "# ".data r.title = true) := by
  unfold parseV2 parseV2L at h
  rcases v2Go_mem _ _ _ _ h with hacc | hP
  · simp at hacc
  · by_cases hl : litHead "# ".data r.title = true
    · right
      rw [if_pos hl] at hP
      exact ⟨hP, hl⟩
    · left
      rw [if_neg hl] at hP
      exact ⟨hP, by simpa using hl⟩

/-- Witness for the amended C9 at a concrete input. -/
theorem parseV2_level_from_title_w :
    (((⟨"T".data, ["body".data], 2⟩ : SlideContent).level = 2 ∧
        litHead "# ".data ("T".data) = false) ∨
      ((⟨"T".data, ["body".data], 2⟩ : SlideContent).level = 1 ∧
        litHead "# ".data ("T".data) = true)) :=
  parseV2_level_from_title "## T\nbody" ⟨"T".data, ["body".data], 2⟩ (by decide)

/-- A token that is not a heading opener leaves a state with no open
slide unchanged. -/
theorem tokStep_no_heading (l : List SlideContent) (b : Bool) (t : Token)
    (h : t.ttype ≠ "heading_open") :
    tokStep (l, none, b) t = (l, none, b) := by
  simp [tokStep, h]

theorem foldl_tokStep_no_heading (ts : List Token) (l : List SlideContent) (b : Bool)
    (h : ∀ t ∈ ts, t.ttype ≠ "heading_open") :
    ts.foldl tokStep (l, none, b) = (l, none, b) := by
  induction ts with
  | nil => rfl
  | cons t rest ih =>
    rw [List.foldl_cons, tokStep_no_heading l b t (h t (by simp))]
    exact ih fun x hx => h x (by simp [hx])

/-- Claim C10: in the token-based variant, tokens before the first
heading-opening token produce no record (the loop opens a slide only
at a heading token), and a stream with no heading token at all yields
the empty list regardless of its content. -/
theorem parseTokens_no_heading :
    (∀ pre post : List Token, (∀ t ∈ pre, t.ttype ≠ "heading_open") →
      parseTokens (pre ++ post) = parseTokens post) ∧
    (∀ ts : List Token, (∀ t ∈ ts, t.ttype ≠ "heading_open") →
      parseTokens ts = []) := by
  constructor
  · intro pre post h
    unfold parseTokens
    rw [List.foldl_append, foldl_tokStep_no_heading pre [] false h]
  · intro ts h
    unfold parseTokens
    rw [foldl_tokStep_no_heading ts [] false h]
    rfl

/-- Witness for C10 on a concrete heading-free token stream. -/
theorem parseTokens_no_heading_w :
    parseTokens [⟨"paragraph_open", "p", ""⟩, ⟨"inline", "", "hello"⟩] = [] :=
  parseTokens_no_heading.2 [⟨"paragraph_open", "p", ""⟩, ⟨"inline", "", "hello"⟩]
    (by decide)

/-- Claim C8: the three-hash input yields exactly one record with
title Deep Title, heading level 3 and body body text, and in general
a section led by a heading line of one to three markers gets the
marker count as its heading level. -/
theorem specSegment_heading_level :
    specSegment "### Deep Title\nbody text" =
      [⟨"Deep Title".data, "body text".data, 3⟩] ∧
    (∀ (k : Nat) (t : List Char) (rest : List (List Char)), 1 ≤ k → k ≤ 3 →
      (sectionToRecord ((List.replicate k '#' ++ ' ' :: t) :: rest)).headingLevel = k) := by
  constructor
  · decide
  · intro k t rest h1 h3
    interval_cases k
    · simp [sectionToRecord, headLvl, List.replicate]
    · simp [sectionToRecord, headLvl, List.replicate]
    · simp [sectionToRecord, headLvl, List.replicate]

/-- Witness for C8's general part at a concrete two-marker heading. -/
theorem specSegment_heading_level_w :
    (sectionToRecord ((List.replicate 2 '#' ++ ' ' :: "X".data) :: [])).headingLevel = 2 :=
  specSegment_heading_level.2 2 "X".data [] (by decide) (by decide)

theorem replGo_zero_cons (p0 : Char) (ps r : List Char) (c : Char) (rest : List Char) :
    replGo p0 ps r 0 (c :: rest) =
      if litHead (p0 :: ps) (c :: rest) then r ++ replGo p0 ps r ps.length rest
      else c :: replGo p0 ps r 0 rest := rfl

theorem repl_free_append (p0 : Char) (ps r a t : List Char) (h : ∀ c ∈ a, c ≠ p0) :
    replGo p0 ps r 0 (a ++ t) = a ++ replGo p0 ps r 0 t := by
  induction a with
  | nil => rfl
  | cons c a' ih =>
    have hc : c ≠ p0 := h c (by simp)
    have hb : (p0 == c) = false := by
      simpa [beq_eq_false_iff_ne] using (Ne.symm hc)
    have hl : litHead (p0 :: ps) (c :: (a' ++ t)) = false := by
      simp [litHead, hb]
    rw [List.cons_append, replGo_zero_cons, hl]
    simp only [Bool.false_eq_true, if_false]
    rw [ih fun x hx => h x (by simp [hx])]
    rfl

theorem entLt_skip_amp (b : List Char) :
    entLt ("&amp;".data ++ b) = "&amp;".data ++ entLt b := rfl

theorem entLt_skip_gt (b : List Char) :
    entLt ("&gt;".data ++ b) = "&gt;".data ++ entLt b := rfl

theorem entLt_skip_quot (b : List Char) :
    entLt ("&quot;".data ++ b) = "&quot;".data ++ entLt b := rfl

theorem entGt_skip_amp (b : List Char) :
    entGt ("&amp;".data ++ b) = "&amp;".data ++ entGt b := rfl

theorem entGt_skip_quot (b : List Char) :
    entGt ("&quot;".data ++ b) = "&quot;".data ++ entGt b := rfl

theorem entQuot_skip_amp (b : List Char) :
    entQuot ("&amp;".data ++ b) = "&amp;".data ++ entQuot b := rfl

theorem entLt_match (b : List Char) :
    entLt ("&lt;".data ++ b) = '<' :: entLt b := rfl

theorem entGt_match (b : List Char) :
    entGt ("&gt;".data ++ b) = '>' :: entGt b := rfl

theorem entQuot_match (b : List Char) :
    entQuot ("&quot;".data ++ b) = '"' :: entQuot b := rfl

theorem entAmp_match (b : List Char) :
    entAmp ("&amp;".data ++ b) = '&' :: entAmp b := rfl

theorem mem_append_no_amp {a : List Char} (d : Char) (hd : d ≠ '&')
    (h : ∀ c ∈ a, c ≠ '&') : ∀ c ∈ a ++ [d], c ≠ '&' := by
  intro c hc
  rcases List.mem_append.mp hc with h1 | h2
  · exact h c h1
  · rw [List.mem_singleton.mp h2]; exact hd

theorem collapse_cons (c : Char) (rest : List Char) :
    collapse (c :: rest) =
      if c = '\n' ∧ (collapse rest).take 2 = ['\n', '\n'] then collapse rest
      else c :: collapse rest := rfl

theorem collapse_take2 (l : List Char) : (collapse l).take 2 = l.take 2 := by
  induction l with
  | nil => rfl
  | cons c rest ih =>
    rw [collapse_cons]
    by_cases hcond : c = '\n' ∧ (collapse rest).take 2 = ['\n', '\n']
    · rw [if_pos hcond]
      obtain ⟨hc, h2⟩ := hcond
      subst hc
      have hr2 : rest.take 2 = ['\n', '\n'] := ih.symm.trans h2
      have h1 : rest.take 1 = ['\n'] := by
        have := congrArg (List.take 1) hr2
        simpa [List.take_take] using this
      rw [h2, List.take_succ_cons, h1]
    · rw [if_neg hcond]
      have h1 : (collapse rest).take 1 = rest.take 1 := by
        have := congrArg (List.take 1) ih
        simpa [List.take_take] using this
      rw [List.take_succ_cons, List.take_succ_cons, h1]

theorem collapse_take1 (l : List Char) : (collapse l).take 1 = l.take 1 := by
  have := congrArg (List.take 1) (collapse_take2 l)
  simpa [List.take_take] using this

theorem collapse_append {a : List Char} (t : List Char)
    (h : a.getLast? ≠ some '\n') :
    collapse (a ++ t) = collapse a ++ collapse t := by
  induction a with
  | nil => rfl
  | cons c a' ih =>
    cases a' with
    | nil =>
      have hc : c ≠ '\n' := by simpa using h
      have e1 : collapse [c] = [c] := by
        rw [collapse_cons, show collapse ([] : List Char) = [] from rfl]
        simp
      rw [List.cons_append, List.nil_append, collapse_cons,
        if_neg (fun hx => hc hx.1), e1, List.cons_append, List.nil_append]
    | cons c2 a'' =>
      have hlast : (c2 :: a'').getLast? ≠ some '\n' := by
        rwa [List.getLast?_cons_cons] at h
      have ihh := ih hlast
      have htake2 : (collapse ((c2 :: a'') ++ t)).take 2 = ['\n', '\n'] ↔
          (collapse (c2 :: a'')).take 2 = ['\n', '\n'] := by
        rw [collapse_take2, collapse_take2]
        cases a'' with
        | nil =>
          have hc2 : c2 ≠ '\n' := by simpa using hlast
          simp [List.take_succ_cons, hc2]
        | cons c3 a''' => simp [List.take_succ_cons]
      by_cases hcond : (collapse (c2 :: a'')).take 2 = ['\n', '\n']
      · have hcond' : (collapse ((c2 :: a'') ++ t)).take 2 = ['\n', '\n'] :=
          htake2.mpr hcond
        by_cases hcn : c = '\n'
        · rw [List.cons_append, collapse_cons, if_pos ⟨hcn, hcond'⟩,
            collapse_cons, if_pos ⟨hcn, hcond⟩, ihh]
        · rw [List.cons_append, collapse_cons, if_neg (fun hx => hcn hx.1),
            collapse_cons, if_neg (fun hx => hcn hx.1), ihh, List.cons_append]
      · have hcond' : ¬ (collapse ((c2 :: a'') ++ t)).take 2 = ['\n', '\n'] :=
          fun hx => hcond (htake2.mp hx)
        rw [List.cons_append, collapse_cons, if_neg (fun hx => hcond' hx.2),
          collapse_cons, if_neg (fun hx => hcond hx.2), ihh, List.cons_append]

theorem collapse_replicate {n : Nat} (t : List Char) (hn : 3 ≤ n)
    (ht : t.take 1 ≠ ['\n']) :
    collapse (List.replicate n '\n' ++ t) = '\n' :: '\n' :: collapse t := by
  have h1 : collapse ('\n' :: t) = '\n' :: collapse t := by
    rw [collapse_cons, if_neg]
    intro hx
    apply ht
    have h2 := hx.2
    rw [collapse_take2] at h2
    have := congrArg (List.take 1) h2
    simpa [List.take_take] using this
  have h2 : collapse ('\n' :: '\n' :: t) = '\n' :: '\n' :: collapse t := by
    rw [collapse_cons, h1, if_neg]
    intro hx
    apply ht
    have h3 := hx.2
    rw [List.take_succ_cons, collapse_take1] at h3
    simpa using h3
  induction n, hn using Nat.le_induction with
  | base =>
    show collapse ('\n' :: '\n' :: '\n' :: t) = _
    rw [collapse_cons, h2, if_pos ⟨rfl, by rw [List.take_succ_cons, List.take_succ_cons]; rfl⟩]
  | succ n hn ih =>
    rw [List.replicate_succ, List.cons_append, collapse_cons, ih,
      if_pos ⟨rfl, by rw [List.take_succ_cons, List.take_succ_cons]; rfl⟩]

theorem entLt_free_append (a t : List Char) (h : ∀ c ∈ a, c ≠ '&') :
    entLt (a ++ t) = a ++ entLt t :=
  repl_free_append '&' "lt;".data "<".data a t h

theorem entGt_free_append (a t : List Char) (h : ∀ c ∈ a, c ≠ '&') :
    entGt (a ++ t) = a ++ entGt t :=
  repl_free_append '&' "gt;".data ">".data a t h

theorem entQuot_free_append (a t : List Char) (h : ∀ c ∈ a, c ≠ '&') :
    entQuot (a ++ t) = a ++ entQuot t :=
  repl_free_append '&' "quot;".data "\"".data a t h

theorem entAmp_free_append (a t : List Char) (h : ∀ c ∈ a, c ≠ '&') :
    entAmp (a ++ t) = a ++ entAmp t :=
  repl_free_append '&' "amp;".data "&".data a t h

theorem entGt_free_cons (a t : List Char) (d : Char) (hd : d ≠ '&')
    (h : ∀ c ∈ a, c ≠ '&') : entGt (a ++ d :: t) = a ++ d :: entGt t := by
  have := entGt_free_append (a ++ [d]) t (mem_append_no_amp d hd h)
  simpa using this

theorem entQuot_free_cons (a t : List Char) (d : Char) (hd : d ≠ '&')
    (h : ∀ c ∈ a, c ≠ '&') : entQuot (a ++ d :: t) = a ++ d :: entQuot t := by
  have := entQuot_free_append (a ++ [d]) t (mem_append_no_amp d hd h)
  simpa using this

theorem entAmp_free_cons (a t : List Char) (d : Char) (hd : d ≠ '&')
    (h : ∀ c ∈ a, c ≠ '&') : entAmp (a ++ d :: t) = a ++ d :: entAmp t := by
  have := entAmp_free_append (a ++ [d]) t (mem_append_no_amp d hd h)
  simpa using this

/-- Claim C6: the markup-stripping step decodes each of the four
standard entities — an occurrence of an entity preceded by
ampersand-free text decodes to exactly the corresponding character in
place — and every maximal run of three or more newlines is collapsed
to exactly two. -/
theorem decodeEntities_collapse_ok :
    (∀ a b : List Char, (∀ c ∈ a, c ≠ '&') →
      decodeEntities (a ++ "&amp;".data ++ b) = a ++ '&' :: decodeEntities b) ∧
    (∀ a b : List Char, (∀ c ∈ a, c ≠ '&') →
      decodeEntities (a ++ "&lt;".data ++ b) = a ++ '<' :: decodeEntities b) ∧
    (∀ a b : List Char, (∀ c ∈ a, c ≠ '&') →
      decodeEntities (a ++ "&gt;".data ++ b) = a ++ '>' :: decodeEntities b) ∧
    (∀ a b : List Char, (∀ c ∈ a, c ≠ '&') →
      decodeEntities (a ++ "&quot;".data ++ b) = a ++ '"' :: decodeEntities b) ∧
    (∀ (a t : List Char) (n : Nat), 3 ≤ n → a.getLast? ≠ some '\n' →
      t.take 1 ≠ ['\n'] →
      collapse (a ++ List.replicate n '\n' ++ t) =
        collapse a ++ '\n' :: '\n' :: collapse t) := by
  refine ⟨?_, ?_, ?_, ?_, ?_⟩
  · intro a b ha
    rw [List.append_assoc]
    simp only [decodeEntities]
    rw [entLt_free_append a _ ha, entLt_skip_amp,
      entGt_free_append a _ ha, entGt_skip_amp,
      entQuot_free_append a _ ha, entQuot_skip_amp,
      entAmp_free_append a _ ha, entAmp_match]
  · intro a b ha
    rw [List.append_assoc]
    simp only [decodeEntities]
    rw [entLt_free_append a _ ha, entLt_match,
      entGt_free_cons a _ '<' (by decide) ha,
      entQuot_free_cons a _ '<' (by decide) ha,
      entAmp_free_cons a _ '<' (by decide) ha]
  · intro a b ha
    rw [List.append_assoc]
    simp only [decodeEntities]
    rw [entLt_free_append a _ ha, entLt_skip_gt,
      entGt_free_append a _ ha, entGt_match,
      entQuot_free_cons a _ '>' (by decide) ha,
      entAmp_free_cons a _ '>' (by decide) ha]
  · intro a b ha
    rw [List.append_assoc]
    simp only [decodeEntities]
    rw [entLt_free_append a _ ha, entLt_skip_quot,
      entGt_free_append a _ ha, entGt_skip_quot,
      entQuot_free_append a _ ha, entQuot_match,
      entAmp_free_cons a _ '"' (by decide) ha]
  · intro a t n hn ha ht
    rw [List.append_assoc, collapse_append _ ha, collapse_replicate t hn ht]

/-- Witness for C6 at concrete surroundings. -/
theorem decodeEntities_collapse_ok_w :
    decodeEntities ("x ".data ++ "&amp;".data ++ " y".data) =
      "x ".data ++ '&' :: decodeEntities " y".data :=
  decodeEntities_collapse_ok.1 "x ".data " y".data (by decide)

theorem charCI_lt_false {c : Char} (hc : c ≠ '<') : charCI '<' c = false := by
  rw [charCI, show '<'.toUpper = '<' from rfl]
  simp [hc]

theorem ciHead_lt_false {ps cs : List Char} {c : Char} (hc : c ≠ '<') :
    ciHead ('<' :: ps) (c :: cs) = false := by
  simp [ciHead, charCI_lt_false hc]

theorem hMatch_hd_false {c : Char} (rest : List Char) (hc : c ≠ '<') :
    hMatch (c :: rest) = false := by
  rcases rest with _ | ⟨b, _ | ⟨h3, _ | ⟨d, _ | ⟨e, t⟩⟩⟩⟩ <;> simp [hMatch, hc]

theorem blockTagLen_zero {c : Char} (rest : List Char) (hc : c ≠ '<') :
    blockTagLen (c :: rest) = 0 := by
  rw [blockTagLen,
    show "<p>".data = '<' :: 'p' :: '>' :: [] from rfl,
    show "</p>".data = '<' :: '/' :: 'p' :: '>' :: [] from rfl,
    show "</li>".data = '<' :: '/' :: 'l' :: 'i' :: '>' :: [] from rfl,
    show "<br/>".data = '<' :: 'b' :: 'r' :: '/' :: '>' :: [] from rfl,
    show "<br>".data = '<' :: 'b' :: 'r' :: '>' :: [] from rfl,
    ciHead_lt_false hc, ciHead_lt_false hc, ciHead_lt_false hc,
    hMatch_hd_false rest hc, ciHead_lt_false hc, ciHead_lt_false hc]
  simp

theorem blockPass_id {l : List Char} (h : ∀ c ∈ l, c ≠ '<') : blockPass l = l := by
  show blockGo 0 l = l
  induction l with
  | nil => rfl
  | cons c rest ih =>
    rw [show blockGo 0 (c :: rest) =
        (if blockTagLen (c :: rest) = 0 then c :: blockGo 0 rest
         else '\n' :: blockGo (blockTagLen (c :: rest) - 1) rest) from rfl,
      blockTagLen_zero rest (h c (by simp)), if_pos rfl,
      ih fun x hx => h x (by simp [hx])]

theorem liPass_id {l : List Char} (h : ∀ c ∈ l, c ≠ '<') : liPass l = l := by
  show liGo 0 l = l
  induction l with
  | nil => rfl
  | cons c rest ih =>
    have hcs : ciHead "<li>".data (c :: rest) = false := by
      rw [show "<li>".data = '<' :: 'l' :: 'i' :: '>' :: [] from rfl]
      exact ciHead_lt_false (h c (by simp))
    rw [show liGo 0 (c :: rest) =
        (if ciHead "<li>".data (c :: rest) then ' ' :: '-' :: ' ' :: liGo 3 rest
         else c :: liGo 0 rest) from rfl, hcs]
    simp only [Bool.false_eq_true, if_false]
    rw [ih fun x hx => h x (by simp [hx])]

theorem tagPass_id {l : List Char} (h : ∀ c ∈ l, c ≠ '<') : tagPass l = l := by
  show tagGo none l = l
  induction l with
  | nil => rfl
  | cons c rest ih =>
    rw [show tagGo none (c :: rest) =
        (if c = '<' then tagGo (some []) rest else c :: tagGo none rest) from rfl,
      if_neg (h c (by simp)), ih fun x hx => h x (by simp [hx])]

theorem repl_free (p0 : Char) (ps r l : List Char) (h : ∀ c ∈ l, c ≠ p0) :
    replGo p0 ps r 0 l = l := by
  have h0 := repl_free_append p0 ps r l [] h
  rw [List.append_nil, show replGo p0 ps r 0 ([] : List Char) = [] from rfl,
    List.append_nil] at h0
  exact h0

theorem decodeEntities_id {l : List Char} (h : ∀ c ∈ l, c ≠ '&') :
    decodeEntities l = l := by
  show entAmp (entQuot (entGt (entLt l))) = l
  unfold entAmp entQuot entGt entLt repl
  rw [repl_free _ _ _ _ h, repl_free _ _ _ _ h, repl_free _ _ _ _ h,
    repl_free _ _ _ _ h]

theorem mem_collapse {c : Char} {l : List Char} (h : c ∈ collapse l) : c ∈ l := by
  induction l with
  | nil =>
    rw [show collapse [] = [] from rfl] at h
    exact absurd h (List.not_mem_nil c)
  | cons d rest ih =>
    rw [collapse_cons] at h
    by_cases hcond : d = '\n' ∧ (collapse rest).take 2 = ['\n', '\n']
    · rw [if_pos hcond] at h
      exact List.mem_cons_of_mem d (ih h)
    · rw [if_neg hcond] at h
      rcases List.mem_cons.mp h with h1 | h1
      · exact h1 ▸ List.mem_cons_self d rest
      · exact List.mem_cons_of_mem d (ih h1)

theorem mem_dropWhileSub {c : Char} {p : Char → Bool} {l : List Char}
    (h : c ∈ l.dropWhile p) : c ∈ l := by
  induction l with
  | nil => simp at h
  | cons d rest ih =>
    by_cases hd : p d = true
    · rw [List.dropWhile_cons_of_pos hd] at h
      exact List.mem_cons_of_mem d (ih h)
    · rw [List.dropWhile_cons_of_neg (by simpa using hd)] at h
      exact h

theorem mem_trimL {c : Char} {l : List Char} (h : c ∈ trimL l) : c ∈ l := by
  unfold trimL at h
  rw [List.mem_reverse] at h
  have h2 := mem_dropWhileSub h
  rw [List.mem_reverse] at h2
  exact mem_dropWhileSub h2

theorem hasNNN_collapse (l : List Char) : hasNNN (collapse l) = false := by
  induction l with
  | nil => rfl
  | cons c rest ih =>
    rw [collapse_cons]
    by_cases hcond : c = '\n' ∧ (collapse rest).take 2 = ['\n', '\n']
    · rw [if_pos hcond]; exact ih
    · rw [if_neg hcond]
      show (decide (c = '\n' ∧ (collapse rest).take 2 = ['\n', '\n']) ||
        hasNNN (collapse rest)) = false
      rw [ih, decide_eq_false hcond]
      rfl

theorem collapse_of_noNNN {l : List Char} (h : hasNNN l = false) : collapse l = l := by
  induction l with
  | nil => rfl
  | cons c rest ih =>
    rw [show hasNNN (c :: rest) =
        (decide (c = '\n' ∧ rest.take 2 = ['\n', '\n']) || hasNNN rest) from rfl,
      Bool.or_eq_false_iff] at h
    obtain ⟨hd, hr⟩ := h
    rw [collapse_cons, ih hr, if_neg (of_decide_eq_false hd)]

theorem hasNNN_append_right {t : List Char} (p : List Char) (h : hasNNN t = true) :
    hasNNN (p ++ t) = true := by
  induction p with
  | nil => simpa using h
  | cons c p' ih =>
    show (decide (c = '\n' ∧ (p' ++ t).take 2 = ['\n', '\n']) || hasNNN (p' ++ t)) = true
    rw [ih]
    simp

theorem dropWhile_suffix_decomp (p : Char → Bool) (l : List Char) :
    ∃ u, l = u ++ l.dropWhile p := by
  induction l with
  | nil => exact ⟨[], rfl⟩
  | cons c rest ih =>
    by_cases hc : p c = true
    · obtain ⟨u, hu⟩ := ih
      refine ⟨c :: u, ?_⟩
      rw [List.dropWhile_cons_of_pos hc, List.cons_append]
      exact congrArg (c :: ·) hu
    · exact ⟨[], by rw [List.dropWhile_cons_of_neg (by simpa using hc)]; rfl⟩

theorem hasNNN_dropWhile (p : Char → Bool) {l : List Char} (h : hasNNN l = false) :
    hasNNN (l.dropWhile p) = false := by
  by_contra hx
  rw [Bool.not_eq_false] at hx
  obtain ⟨u, hu⟩ := dropWhile_suffix_decomp p l
  have htrue := hasNNN_append_right u hx
  rw [← hu] at htrue
  rw [htrue] at h
  exact Bool.noConfusion h

theorem hasNNN_iff_parts (x : List Char) :
    hasNNN x = true ↔ ∃ u v, x = u ++ '\n' :: '\n' :: '\n' :: v := by
  constructor
  · intro h
    induction x with
    | nil => simp [hasNNN] at h
    | cons c rest ih =>
      rw [show hasNNN (c :: rest) =
          (decide (c = '\n' ∧ rest.take 2 = ['\n', '\n']) || hasNNN rest) from rfl,
        Bool.or_eq_true] at h
      rcases h with h | h
      · obtain ⟨hc, ht⟩ := of_decide_eq_true h
        subst hc
        rcases rest with _ | ⟨d, _ | ⟨e, rest''⟩⟩
        · simp at ht
        · simp [List.take_succ_cons] at ht
        · simp [List.take_succ_cons] at ht
          obtain ⟨hd, he⟩ := ht
          subst hd
          subst he
          exact ⟨[], rest'', rfl⟩
      · obtain ⟨u, v, huv⟩ := ih h
        exact ⟨c :: u, v, by rw [huv, List.cons_append]⟩
  · rintro ⟨u, v, rfl⟩
    induction u with
    | nil =>
      show (decide ('\n' = '\n' ∧ ('\n' :: '\n' :: v).take 2 = ['\n', '\n']) || _) = true
      simp [List.take_succ_cons]
    | cons c u' ih =>
      show (decide _ || hasNNN (u' ++ '\n' :: '\n' :: '\n' :: v)) = true
      rw [ih]
      simp

theorem hasNNN_reverse {l : List Char} (h : hasNNN l = false) :
    hasNNN l.reverse = false := by
  by_contra hx
  rw [Bool.not_eq_false] at hx
  obtain ⟨u, v, huv⟩ := (hasNNN_iff_parts _).mp hx
  have hl : l = v.reverse ++ '\n' :: '\n' :: '\n' :: u.reverse := by
    have h2 := congrArg List.reverse huv
    rw [List.reverse_reverse] at h2
    rw [h2]
    simp
  have htrue : hasNNN l = true :=
    (hasNNN_iff_parts _).mpr ⟨v.reverse, u.reverse, hl⟩
  rw [htrue] at h
  exact Bool.noConfusion h

theorem hasNNN_trimL {l : List Char} (h : hasNNN l = false) :
    hasNNN (trimL l) = false := by
  unfold trimL
  exact hasNNN_reverse (hasNNN_dropWhile _ (hasNNN_reverse (hasNNN_dropWhile _ h)))

theorem dropWhile_head_false (p : Char → Bool) (l : List Char) :
    l.dropWhile p = [] ∨ ∃ c rest, l.dropWhile p = c :: rest ∧ p c = false := by
  induction l with
  | nil => left; rfl
  | cons c rest ih =>
    by_cases hc : p c = true
    · rw [List.dropWhile_cons_of_pos hc]
      exact ih
    · right
      exact ⟨c, rest, List.dropWhile_cons_of_neg (by simpa using hc), by simpa using hc⟩

theorem dw_idem (p : Char → Bool) (l : List Char) :
    (l.dropWhile p).dropWhile p = l.dropWhile p := by
  rcases dropWhile_head_false p l with h | ⟨c, rest, he, hp⟩
  · rw [h]; rfl
  · rw [he]
    exact List.dropWhile_cons_of_neg (by simp [hp])

theorem dropWhile_trimL (l : List Char) : (trimL l).dropWhile isWs = trimL l := by
  rcases htr : trimL l with _ | ⟨d, ds⟩
  · rfl
  · have hhead : (trimL l).head? = some d := by rw [htr]; rfl
    have hY : trimL l = ((l.dropWhile isWs).reverse.dropWhile isWs).reverse := rfl
    rw [hY, List.head?_reverse] at hhead
    obtain ⟨u, hu⟩ := dropWhile_suffix_decomp isWs ((l.dropWhile isWs).reverse)
    have hne : (l.dropWhile isWs).reverse.dropWhile isWs ≠ [] := by
      intro h0
      have h3 : trimL l = [] := by rw [hY, h0]; rfl
      rw [htr] at h3
      exact List.noConfusion h3
    have hgl : ((l.dropWhile isWs).reverse).getLast? = some d := by
      rw [hu, List.getLast?_append_of_ne_nil u hne]
      exact hhead
    rw [List.getLast?_reverse] at hgl
    have hpd : isWs d = false := by
      rcases dropWhile_head_false isWs l with hnil | ⟨c', rest', he, hp⟩
      · rw [hnil] at hgl
        exact Option.noConfusion hgl
      · rw [he] at hgl
        have hcd : c' = d := by simpa using hgl
        rwa [hcd] at hp
    exact List.dropWhile_cons_of_neg (by simp [hpd])

theorem dropWhile_trimL_reverse (l : List Char) :
    ((trimL l).reverse).dropWhile isWs = (trimL l).reverse := by
  rw [show trimL l = ((l.dropWhile isWs).reverse.dropWhile isWs).reverse from rfl,
    List.reverse_reverse]
  exact dw_idem isWs _

theorem trimL_idem (l : List Char) : trimL (trimL l) = trimL l := by
  show (((trimL l).dropWhile isWs).reverse.dropWhile isWs).reverse = trimL l
  rw [dropWhile_trimL l, dropWhile_trimL_reverse l, List.reverse_reverse]

theorem stripL_plain (l : List Char) (h1 : ∀ c ∈ l, c ≠ '&')
    (h2 : ∀ c ∈ l, c ≠ '<') : stripL l = trimL (collapse l) := by
  unfold stripL
  rw [blockPass_id h2, liPass_id h2, tagPass_id h2, decodeEntities_id h1]

theorem noLtGt_cons_lt (rest : List Char) :
    noLtGt ('<' :: rest) = !(rest.contains '>') := rfl

theorem noLtGt_cons_ne {c : Char} (hc : c ≠ '<') (rest : List Char) :
    noLtGt (c :: rest) = noLtGt rest := by
  simp [noLtGt, hc]

theorem noLtGt_of_no_gt {l : List Char} (h : '>' ∉ l) : noLtGt l = true := by
  induction l with
  | nil => rfl
  | cons c rest ih =>
    have hr : '>' ∉ rest := fun hx => h (List.mem_cons_of_mem c hx)
    by_cases hc : c = '<'
    · subst hc
      rw [noLtGt_cons_lt]
      simpa using hr
    · rw [noLtGt_cons_ne hc]
      exact ih hr

theorem gt_not_mem_of_noLtGt {rest : List Char}
    (h : noLtGt ('<' :: rest) = true) : '>' ∉ rest := by
  rw [noLtGt_cons_lt] at h
  simpa using h

theorem noLtGt_tail {c : Char} {rest : List Char}
    (h : noLtGt (c :: rest) = true) : noLtGt rest = true := by
  by_cases hc : c = '<'
  · subst hc
    exact noLtGt_of_no_gt (gt_not_mem_of_noLtGt h)
  · rwa [noLtGt_cons_ne hc] at h

theorem noLtGt_append_right {u v : List Char}
    (h : noLtGt (u ++ v) = true) : noLtGt v = true := by
  induction u with
  | nil => exact h
  | cons c u' ih => exact ih (noLtGt_tail h)

theorem noLtGt_append_left {x v : List Char}
    (h : noLtGt (x ++ v) = true) : noLtGt x = true := by
  induction x with
  | nil => rfl
  | cons c x' ih =>
    by_cases hc : c = '<'
    · subst hc
      rw [List.cons_append] at h
      have hgt := gt_not_mem_of_noLtGt h
      rw [noLtGt_cons_lt]
      simp only [Bool.not_eq_true']
      simp only [List.mem_append] at hgt
      simpa using fun hx => hgt (Or.inl hx)
    · rw [List.cons_append, noLtGt_cons_ne hc] at h
      rw [noLtGt_cons_ne hc]
      exact ih h

theorem mem_blockGo {c : Char} {l : List Char} :
    ∀ {k : Nat}, c ∈ blockGo k l → c ∈ l ∨ c = '\n' := by
  induction l with
  | nil =>
    intro k h
    rw [show blockGo k [] = [] from by cases k <;> rfl] at h
    exact absurd h (List.not_mem_nil c)
  | cons d rest ih =>
    intro k h
    cases k with
    | succ n =>
      rw [show blockGo (n + 1) (d :: rest) = blockGo n rest from rfl] at h
      rcases ih h with h1 | h1
      · exact Or.inl (List.mem_cons_of_mem d h1)
      · exact Or.inr h1
    | zero =>
      rw [show blockGo 0 (d :: rest) =
          (if blockTagLen (d :: rest) = 0 then d :: blockGo 0 rest
           else '\n' :: blockGo (blockTagLen (d :: rest) - 1) rest) from rfl] at h
      by_cases hb : blockTagLen (d :: rest) = 0
      · rw [if_pos hb] at h
        rcases List.mem_cons.mp h with h1 | h1
        · exact Or.inl (h1 ▸ List.mem_cons_self d rest)
        · rcases ih h1 with h2 | h2
          · exact Or.inl (List.mem_cons_of_mem d h2)
          · exact Or.inr h2
      · rw [if_neg hb] at h
        rcases List.mem_cons.mp h with h1 | h1
        · exact Or.inr h1
        · rcases ih h1 with h2 | h2
          · exact Or.inl (List.mem_cons_of_mem d h2)
          · exact Or.inr h2

theorem mem_liGo {c : Char} {l : List Char} :
    ∀ {k : Nat}, c ∈ liGo k l → c ∈ l ∨ c = ' ' ∨ c = '-' := by
  induction l with
  | nil =>
    intro k h
    rw [show liGo k [] = [] from by cases k <;> rfl] at h
    exact absurd h (List.not_mem_nil c)
  | cons d rest ih =>
    intro k h
    cases k with
    | succ n =>
      rw [show liGo (n + 1) (d :: rest) = liGo n rest from rfl] at h
      rcases ih h with h1 | h1
      · exact Or.inl (List.mem_cons_of_mem d h1)
      · exact Or.inr h1
    | zero =>
      rw [show liGo 0 (d :: rest) =
          (if ciHead "<li>".data (d :: rest) then ' ' :: '-' :: ' ' :: liGo 3 rest
           else d :: liGo 0 rest) from rfl] at h
      by_cases hb : ciHead "<li>".data (d :: rest) = true
      · rw [if_pos hb] at h
        rcases List.mem_cons.mp h with h1 | h1
        · exact Or.inr (Or.inl h1)
        · rcases List.mem_cons.mp h1 with h2 | h2
          · exact Or.inr (Or.inr h2)
          · rcases List.mem_cons.mp h2 with h3 | h3
            · exact Or.inr (Or.inl h3)
            · rcases ih h3 with h4 | h4
              · exact Or.inl (List.mem_cons_of_mem d h4)
              · exact Or.inr h4
      · rw [if_neg hb] at h
        rcases List.mem_cons.mp h with h1 | h1
        · exact Or.inl (h1 ▸ List.mem_cons_self d rest)
        · rcases ih h1 with h2 | h2
          · exact Or.inl (List.mem_cons_of_mem d h2)
          · exact Or.inr h2

theorem mem_tagGo (l : List Char) :
    (∀ c, c ∈ tagGo none l → c ∈ l ∨ c = '<') ∧
    (∀ buf c, c ∈ tagGo (some buf) l → c ∈ l ∨ c ∈ buf ∨ c = '<') := by
  induction l with
  | nil =>
    constructor
    · intro c h
      exact absurd h (List.not_mem_nil c)
    · intro buf c h
      rcases List.mem_cons.mp h with h1 | h1
      · exact Or.inr (Or.inr h1)
      · exact Or.inr (Or.inl (List.mem_reverse.mp h1))
  | cons d rest ih =>
    constructor
    · intro c h
      by_cases hd : d = '<'
      · rw [show tagGo none (d :: rest) =
            (if d = '<' then tagGo (some []) rest else d :: tagGo none rest) from rfl,
          if_pos hd] at h
        rcases (ih.2 [] c h) with h1 | h1 | h1
        · exact Or.inl (List.mem_cons_of_mem d h1)
        · exact absurd h1 (List.not_mem_nil c)
        · exact Or.inr h1
      · rw [show tagGo none (d :: rest) =
            (if d = '<' then tagGo (some []) rest else d :: tagGo none rest) from rfl,
          if_neg hd] at h
        rcases List.mem_cons.mp h with h1 | h1
        · exact Or.inl (h1 ▸ List.mem_cons_self d rest)
        · rcases ih.1 c h1 with h2 | h2
          · exact Or.inl (List.mem_cons_of_mem d h2)
          · exact Or.inr h2
    · intro buf c h
      by_cases hd : d = '>'
      · rw [show tagGo (some buf) (d :: rest) =
            (if d = '>' then tagGo none rest else tagGo (some (d :: buf)) rest) from rfl,
          if_pos hd] at h
        rcases ih.1 c h with h1 | h1
        · exact Or.inl (List.mem_cons_of_mem d h1)
        · exact Or.inr (Or.inr h1)
      · rw [show tagGo (some buf) (d :: rest) =
            (if d = '>' then tagGo none rest else tagGo (some (d :: buf)) rest) from rfl,
          if_neg hd] at h
        rcases ih.2 (d :: buf) c h with h1 | h1 | h1
        · exact Or.inl (List.mem_cons_of_mem d h1)
        · rcases List.mem_cons.mp h1 with h2 | h2
          · exact Or.inl (h2 ▸ List.mem_cons_self d rest)
          · exact Or.inr (Or.inl h2)
        · exact Or.inr (Or.inr h1)

theorem ciHead_gt_mem : ∀ {ps cs : List Char}, ciHead ps cs = true →
    '>' ∈ ps → '>' ∈ cs := by
  intro ps
  induction ps with
  | nil =>
    intro cs _ hm
    exact absurd hm (List.not_mem_nil _)
  | cons p ps' ih =>
    intro cs h hm
    cases cs with
    | nil => exact absurd h (by simp [ciHead])
    | cons c cs' =>
      simp only [ciHead, Bool.and_eq_true] at h
      rcases List.mem_cons.mp hm with h1 | h1
      · have hcgt : c = '>' := by
          have h2 := h.1
          rw [← h1, charCI, show ('>').toUpper = '>' from rfl] at h2
          simpa using h2
        exact hcgt ▸ List.mem_cons_self c cs'
      · exact List.mem_cons_of_mem c (ih h.2 h1)

theorem ciHead_false_of_gt {ps cs : List Char} (hgt : '>' ∉ cs)
    (hm : '>' ∈ ps) : ciHead ps cs = false := by
  cases hx : ciHead ps cs
  · rfl
  · exact absurd (ciHead_gt_mem hx hm) hgt

theorem ciHead_lt_cons (ps rest : List Char) :
    ciHead ('<' :: ps) ('<' :: rest) = ciHead ps rest := by
  simp [ciHead, charCI]

theorem blockTagLen_noTag {c : Char} {rest : List Char}
    (h : noLtGt (c :: rest) = true) : blockTagLen (c :: rest) = 0 := by
  by_cases hc : c = '<'
  · subst hc
    have hgt : '>' ∉ rest := gt_not_mem_of_noLtGt h
    have hm : hMatch ('<' :: rest) = false := by
      rcases rest with _ | ⟨b, _ | ⟨h3, _ | ⟨d, _ | ⟨e, t⟩⟩⟩⟩
      · rfl
      · rfl
      · rfl
      · rfl
      · cases hx : hMatch ('<' :: b :: h3 :: d :: e :: t)
        · rfl
        · exfalso
          simp only [hMatch, Bool.and_eq_true, beq_iff_eq] at hx
          exact hgt (hx.2 ▸ (by simp : e ∈ b :: h3 :: d :: e :: t))
    rw [blockTagLen,
      show "<p>".data = '<' :: ('p' :: '>' :: []) from rfl,
      show "</p>".data = '<' :: ('/' :: 'p' :: '>' :: []) from rfl,
      show "</li>".data = '<' :: ('/' :: 'l' :: 'i' :: '>' :: []) from rfl,
      show "<br/>".data = '<' :: ('b' :: 'r' :: '/' :: '>' :: []) from rfl,
      show "<br>".data = '<' :: ('b' :: 'r' :: '>' :: []) from rfl,
      ciHead_lt_cons, ciHead_false_of_gt hgt (by simp),
      ciHead_lt_cons, ciHead_false_of_gt hgt (by simp),
      ciHead_lt_cons, ciHead_false_of_gt hgt (by simp),
      hm,
      ciHead_lt_cons, ciHead_false_of_gt hgt (by simp),
      ciHead_lt_cons, ciHead_false_of_gt hgt (by simp)]
    simp
  · exact blockTagLen_zero rest hc

theorem blockPass_noTag_id {l : List Char} (h : noLtGt l = true) :
    blockPass l = l := by
  show blockGo 0 l = l
  induction l with
  | nil => rfl
  | cons c rest ih =>
    rw [show blockGo 0 (c :: rest) =
        (if blockTagLen (c :: rest) = 0 then c :: blockGo 0 rest
         else '\n' :: blockGo (blockTagLen (c :: rest) - 1) rest) from rfl,
      blockTagLen_noTag h, if_pos rfl, ih (noLtGt_tail h)]

theorem liPass_noTag_id {l : List Char} (h : noLtGt l = true) :
    liPass l = l := by
  show liGo 0 l = l
  induction l with
  | nil => rfl
  | cons c rest ih =>
    have hcs : ciHead "<li>".data (c :: rest) = false := by
      by_cases hc : c = '<'
      · subst hc
        rw [show "<li>".data = '<' :: ('l' :: 'i' :: '>' :: []) from rfl,
          ciHead_lt_cons]
        exact ciHead_false_of_gt (gt_not_mem_of_noLtGt h) (by simp)
      · rw [show "<li>".data = '<' :: ('l' :: 'i' :: '>' :: []) from rfl]
        exact ciHead_lt_false hc
    rw [show liGo 0 (c :: rest) =
        (if ciHead "<li>".data (c :: rest) then ' ' :: '-' :: ' ' :: liGo 3 rest
         else c :: liGo 0 rest) from rfl, hcs]
    simp only [Bool.false_eq_true, if_false]
    rw [ih (noLtGt_tail h)]

theorem tagGo_flush : ∀ {rest : List Char} (buf : List Char), '>' ∉ rest →
    tagGo (some buf) rest = '<' :: (buf.reverse ++ rest) := by
  intro rest
  induction rest with
  | nil =>
    intro buf _
    show '<' :: buf.reverse = _
    rw [List.append_nil]
  | cons c r ih =>
    intro buf h
    have hc : c ≠ '>' := fun hx => h (hx ▸ List.mem_cons_self c r)
    rw [show tagGo (some buf) (c :: r) =
        (if c = '>' then tagGo none r else tagGo (some (c :: buf)) r) from rfl,
      if_neg hc, ih (c :: buf) (fun hx => h (List.mem_cons_of_mem c hx)),
      List.reverse_cons, List.append_assoc]
    rfl

theorem tagPass_noTag_id {l : List Char} (h : noLtGt l = true) :
    tagPass l = l := by
  show tagGo none l = l
  induction l with
  | nil => rfl
  | cons c rest ih =>
    by_cases hc : c = '<'
    · subst hc
      rw [show tagGo none ('<' :: rest) = tagGo (some []) rest from rfl,
        tagGo_flush [] (gt_not_mem_of_noLtGt h)]
      rfl
    · rw [show tagGo none (c :: rest) =
          (if c = '<' then tagGo (some []) rest else c :: tagGo none rest) from rfl,
        if_neg hc, ih (noLtGt_tail h)]

theorem noLtGt_tagGo (l : List Char) :
    noLtGt (tagGo none l) = true ∧
    (∀ buf, '>' ∉ buf → noLtGt (tagGo (some buf) l) = true) := by
  induction l with
  | nil =>
    constructor
    · rfl
    · intro buf hb
      show noLtGt ('<' :: buf.reverse) = true
      rw [noLtGt_cons_lt]
      simpa using fun hx => hb (List.mem_reverse.mp hx)
  | cons c rest ih =>
    constructor
    · by_cases hc : c = '<'
      · rw [show tagGo none (c :: rest) =
            (if c = '<' then tagGo (some []) rest else c :: tagGo none rest) from rfl,
          if_pos hc]
        exact ih.2 [] (List.not_mem_nil '>')
      · rw [show tagGo none (c :: rest) =
            (if c = '<' then tagGo (some []) rest else c :: tagGo none rest) from rfl,
          if_neg hc, noLtGt_cons_ne hc]
        exact ih.1
    · intro buf hb
      by_cases hc : c = '>'
      · rw [show tagGo (some buf) (c :: rest) =
            (if c = '>' then tagGo none rest else tagGo (some (c :: buf)) rest) from rfl,
          if_pos hc]
        exact ih.1
      · rw [show tagGo (some buf) (c :: rest) =
            (if c = '>' then tagGo none rest else tagGo (some (c :: buf)) rest) from rfl,
          if_neg hc]
        exact ih.2 (c :: buf) (by
          intro hx
          rcases List.mem_cons.mp hx with h1 | h1
          · exact hc h1.symm
          · exact hb h1)

theorem noLtGt_collapse {l : List Char} (h : noLtGt l = true) :
    noLtGt (collapse l) = true := by
  induction l with
  | nil => rfl
  | cons c rest ih =>
    rw [collapse_cons]
    by_cases hcond : c = '\n' ∧ (collapse rest).take 2 = ['\n', '\n']
    · rw [if_pos hcond]
      exact ih (noLtGt_tail h)
    · rw [if_neg hcond]
      by_cases hc : c = '<'
      · subst hc
        rw [noLtGt_cons_lt]
        have hgt := gt_not_mem_of_noLtGt h
        simpa using fun hx => hgt (mem_collapse hx)
      · rw [noLtGt_cons_ne hc]
        exact ih (noLtGt_tail h)

theorem trimL_infix (l : List Char) : ∃ u v, l = u ++ (trimL l ++ v) := by
  obtain ⟨u, hu⟩ := dropWhile_suffix_decomp isWs l
  obtain ⟨u', hu'⟩ := dropWhile_suffix_decomp isWs ((l.dropWhile isWs).reverse)
  have e : l.dropWhile isWs = trimL l ++ u'.reverse := by
    have h2 := congrArg List.reverse hu'
    rw [List.reverse_reverse, List.reverse_append] at h2
    exact h2
  exact ⟨u, u'.reverse, by rw [← e]; exact hu⟩

theorem noLtGt_trimL {l : List Char} (h : noLtGt l = true) :
    noLtGt (trimL l) = true := by
  obtain ⟨u, v, huv⟩ := trimL_infix l
  rw [huv] at h
  exact noLtGt_append_left (noLtGt_append_right h)

theorem tagStack_no_amp {l : List Char} (h1 : ∀ c ∈ l, c ≠ '&') :
    ∀ c ∈ tagPass (liPass (blockPass l)), c ≠ '&' := by
  intro c hc
  rcases (mem_tagGo (liPass (blockPass l))).1 c hc with hc1 | hc1
  · rcases mem_liGo hc1 with hc2 | hc2 | hc2
    · rcases mem_blockGo hc2 with hc3 | hc3
      · exact h1 c hc3
      · exact hc3 ▸ (by decide)
    · exact hc2 ▸ (by decide)
    · exact hc2 ▸ (by decide)
  · exact hc1 ▸ (by decide)

theorem stripL_no_amp_eq (l : List Char) (h1 : ∀ c ∈ l, c ≠ '&') :
    stripL l = trimL (collapse (tagPass (liPass (blockPass l)))) := by
  unfold stripL
  rw [decodeEntities_id (tagStack_no_amp h1)]

/-- Claim C5 counterexample: the markup-stripping step is not
idempotent — on the nested-entity input the first application yields
the less-than entity text and the second application decodes it
further to a bare opening bracket. -/
theorem strip_not_idempotent : strip (strip "&amp;lt;") ≠ strip "&amp;lt;" := by
  decide

/-- Claim C5 amended: the markup-stripping step is idempotent on every
string containing no ampersand: with no entities to decode, the first
application leaves no tag shape (no closing bracket after an opening
bracket survives tag removal), no three-newline run and no surrounding
whitespace, so the second application is the identity on its output.
Only ampersand-driven re-decoding, as in the counterexample, breaks
idempotence. -/
theorem strip_no_amp_idempotent (s : String) (h1 : ∀ c ∈ s.data, c ≠ '&') :
    strip (strip s) = strip s := by
  have e1 : stripL s.data = trimL (collapse (tagPass (liPass (blockPass s.data)))) :=
    stripL_no_amp_eq _ h1
  have hyAmp : ∀ c ∈ trimL (collapse (tagPass (liPass (blockPass s.data)))), c ≠ '&' :=
    fun c hc => tagStack_no_amp h1 c (mem_collapse (mem_trimL hc))
  have hyTag : noLtGt (trimL (collapse (tagPass (liPass (blockPass s.data))))) = true :=
    noLtGt_trimL (noLtGt_collapse (noLtGt_tagGo (liPass (blockPass s.data))).1)
  have key : stripL (stripL s.data) = stripL s.data := by
    rw [e1]
    unfold stripL
    rw [blockPass_noTag_id hyTag, liPass_noTag_id hyTag, tagPass_noTag_id hyTag,
      decodeEntities_id hyAmp,
      collapse_of_noNNN (hasNNN_trimL (hasNNN_collapse _)),
      trimL_idem]
  show String.mk (stripL (String.mk (stripL s.data)).data) = String.mk (stripL s.data)
  exact congrArg String.mk key

/-- Witness for the amended C5 at a concrete ampersand-free string
that does contain an opening angle bracket. -/
theorem strip_no_amp_idempotent_w : strip (strip "te<st") = strip "te<st" :=
  strip_no_amp_idempotent "te<st" (by decide)

end SlidesConv
